import Mathlib

/-!
Shallow embedding of the resource-lifecycle core of the tiktokbot2 repository
(src/utils.py, src/downloader.py, src/scraper.py, src/main.py) and proofs about
its container invariants, the disk-budget enforcer, the seen-URL window, the
browser recycler and the navigation handler.

The module-level mutable state of `utills` (the Python module `src/utils.py`)
is modelled by the record `St`; the filesystem below `OUTPUT_PATH` is the
`disk` field (a list of files with sizes and modification times), and every
file-removal event is appended to `delLog` so that "deleted exactly once"
claims are expressible.  External collaborators (yt-dlp, Selenium, Telegram)
are modelled by explicit outcome parameters.
-/

namespace TikTokBot

/-- Metadata extracted for a video: mirrors the dicts stored in
`METADATA_BY_PATH` in src/utils.py / src/downloader.py.  `duration` is
`none` for the `{"duration": None, ...}` fallback stored on extraction
failure (downloader.py line 95). -/
structure Meta where
  duration : Option Int
  caption : String
  hashtags : List String
deriving DecidableEq

/-- One file inside the tracked output directory.  `isMp4` records whether its
name ends in ".mp4" (only such files are subject to automatic cleanup). -/
structure DiskFile where
  path : String
  size : Nat
  mtime : Nat
  isMp4 : Bool
deriving DecidableEq

/-- The module-level state of src/utils.py plus the modelled filesystem.
`queue` is VIDEO_QUEUE, `cache` is VIDEO_CACHE, `played` is PLAYED_VIDEOS,
`ci` is CURRENT_INDEX, `seen` is SEEN_URLS, `pre` is PRELOADED_VIDEOS,
`counter` is utills.PRELOAD_COUNTER, `meta` is METADATA_BY_PATH.
`delLog` records, in order, every file actually removed from `disk`. -/
structure St where
  queue : List String
  cache : List String
  played : List String
  ci : Int
  seen : List String
  pre : Finset String
  counter : Nat
  meta : List (String × Meta)
  disk : List DiskFile
  delLog : List String
deriving DecidableEq

/-- HISTORY_MAX in src/utils.py line 21. -/
def HISTORY_MAX : Nat := 3

/-- maxlen of VIDEO_CACHE (src/utils.py line 20). -/
def CACHE_MAXLEN : Nat := 3

/-- SEEN_URLS_MAX in src/utils.py line 22. -/
def SEEN_URLS_MAX : Nat := 250

/-- BROWSER_RESTART_PRELOADS in src/utils.py line 29. -/
def BROWSER_RESTART_PRELOADS : Int := 200

/-- The state right after `import utills`: all containers empty,
CURRENT_INDEX = -1, PRELOAD_COUNTER = 0. -/
def initSt : St :=
  { queue := [], cache := [], played := [], ci := -1, seen := [], pre := ∅,
    counter := 0, meta := [], disk := [], delLog := [] }

/-- `safe_delete` (src/utils.py lines 46-52) / the bare `os.remove` in
downloader.py lines 52-55: remove the file if it exists, record the removal. -/
def stDelete (p : String) (s : St) : St :=
  if s.disk.any (fun f => f.path == p) then
    { s with disk := s.disk.filter (fun f => !(f.path == p)),
             delLog := s.delLog ++ [p] }
  else s

/-- `_keep_set` (src/utils.py lines 54-55): paths protected from cleanup. -/
def keepPaths (s : St) : List String := s.played ++ s.cache

/-- `cleanup_files` (src/utils.py lines 57-69): delete every `.mp4` in the
output directory that is not referenced by PLAYED_VIDEOS or VIDEO_CACHE. -/
def cleanupFiles (s : St) : St :=
  { s with
    disk := s.disk.filter (fun f => !f.isMp4 || (keepPaths s).contains f.path),
    delLog := s.delLog ++
      (s.disk.filter (fun f => f.isMp4 && !((keepPaths s).contains f.path))).map
        DiskFile.path }

/-- `folder_size_bytes` (src/utils.py lines 99-107): total size of all files
in the output directory (regardless of extension). -/
def folderSizeBytes (d : List DiskFile) : Nat := (d.map DiskFile.size).sum

/-- Disk quota / reserve configuration and the device model.  `emptyFree` is
the free space the device would report with the output directory empty, so
that `shutil.disk_usage(...).free` = `emptyFree - folderSizeBytes disk`:
deleting a file frees exactly its size. -/
structure EnforceEnv where
  quotaBytes : Nat
  reserveBytes : Nat
  emptyFree : Nat
deriving DecidableEq

/-- The live free-space sample taken by `shutil.disk_usage` inside
`constraints_ok`. -/
def freeBytes (env : EnforceEnv) (d : List DiskFile) : Nat :=
  env.emptyFree - folderSizeBytes d

/-- `constraints_ok` (src/utils.py lines 118-120).  NOTE the fidelity point:
`folder_bytes` is computed once before the loop (line 116) and captured by
the closure, so the quota comparison uses the stale value `staleFolderBytes`
while only the free-space side is re-sampled from the current disk. -/
def constraintsOk (env : EnforceEnv) (staleFolderBytes : Nat)
    (d : List DiskFile) : Bool :=
  decide (staleFolderBytes ≤ env.quotaBytes) &&
    decide (env.reserveBytes ≤ freeBytes env d)

/-- `PLAYED_VIDEOS[CURRENT_INDEX] if 0 <= CURRENT_INDEX < len(PLAYED_VIDEOS)
else None` (src/utils.py lines 129-133). -/
def currentPathOf (s : St) : Option String :=
  if 0 ≤ s.ci ∧ s.ci < (s.played.length : Int) then s.played.get? s.ci.toNat
  else none

/-- The history branch of one iteration of the enforcer loop
(src/utils.py lines 128-154).  Returns `some` of the new state when a
history eviction happened (`did_delete = True`), `none` when this branch
deleted nothing (history empty, or the current artifact is the only entry).
The inner `while` always breaks on its first pass, so it is a conditional.
Note that the pop-index-1 branch does not adjust CURRENT_INDEX, exactly as
in the source. -/
def historyStep (s : St) : Option St :=
  match s.played with
  | [] => none
  | oldest :: rest =>
    if some oldest = currentPathOf s then
      match rest with
      | [] => none
      | second :: rest2 =>
        some { stDelete second s with played := oldest :: rest2 }
    else
      some { stDelete oldest s with
        played := rest,
        ci := if 0 < s.ci then s.ci - 1 else s.ci }

/-- Untracked-`.mp4` candidates for step (c) of the reclamation ladder
(src/utils.py lines 163-169). -/
def untrackedCandidates (s : St) : List DiskFile :=
  s.disk.filter (fun f => f.isMp4 && !((keepPaths s).contains f.path))

/-- `candidates.sort(key=mtime); candidates[0]`: the first file attaining the
minimal modification time, in directory-listing order (the sort is stable). -/
def pickOldestMtime : List DiskFile → Option DiskFile
  | [] => none
  | f :: fs =>
    match pickOldestMtime fs with
    | none => some f
    | some g => if g.mtime < f.mtime then some g else some f

/-- One full iteration of the enforcer's `while` body after the safety-counter
check (src/utils.py lines 128-174).  The Bool is `true` when the body hit the
final `break` (nothing left to delete). -/
def budgetBody (s : St) : St × Bool :=
  match historyStep s with
  | some s1 => (s1, false)
  | none =>
    match s.cache with
    | old :: restC =>
      let s1 := { s with cache := restC }
      (if old ∈ s.played then s1 else stDelete old s1, false)
    | [] =>
      match pickOldestMtime (untrackedCandidates s) with
      | some f => (stDelete f.path s, false)
      | none => (s, true)

/-- The enforcer's `while not constraints_ok()` loop with the safety counter
(src/utils.py lines 122-174): the body runs at most 100 times. -/
def budgetLoop (env : EnforceEnv) (fb : Nat) : Nat → St → St
  | 0, s => s
  | n + 1, s =>
    if constraintsOk env fb s.disk then s
    else if (budgetBody s).2 then (budgetBody s).1
    else budgetLoop env fb n (budgetBody s).1

/-- `enforce_disk_budget` (src/utils.py lines 109-176): run `cleanup_files`,
sample `folder_bytes` once, then run the reclamation loop against that stale
sample. -/
def enforceDiskBudget (env : EnforceEnv) (s : St) : St :=
  budgetLoop env (folderSizeBytes (cleanupFiles s).disk) 100 (cleanupFiles s)

/-- `push_played_video` (src/utils.py lines 85-97). -/
def pushPlayedVideo (p : String) (updateIndex : Bool) (s : St) : St :=
  let s1 := { s with played := s.played ++ [p] }
  let s2 :=
    if HISTORY_MAX < s1.played.length then
      match s1.played with
      | [] => s1
      | evicted :: rest =>
        let sa := { s1 with played := rest }
        let sb := if evicted = p then sa else stDelete evicted sa
        { sb with ci := if 0 < sb.ci then sb.ci - 1 else sb.ci }
    else s1
  let s3 := if updateIndex then { s2 with ci := (s2.played.length : Int) - 1 }
            else s2
  cleanupFiles s3

/-- The `prev_video` branch of `navigation_callback` (src/main.py
lines 291-300): decrement the cursor iff it is positive. -/
def prevOp (s : St) : St := if 0 < s.ci then { s with ci := s.ci - 1 } else s

/-- `add_seen_url` (src/utils.py lines 76-83). -/
def addSeenUrl (href : String) (s : St) : St :=
  if href ∈ s.pre then s
  else
    let s1 :=
      if SEEN_URLS_MAX ≤ s.seen.length then
        match s.seen with
        | [] => s
        | oldest :: rest => { s with seen := rest, pre := s.pre.erase oldest }
      else s
    { s1 with pre := insert href s1.pre, seen := s1.seen ++ [href] }

/-- Fuel-indexed version of the `while` in `prune_seen_urls_if_needed`. -/
def pruneSeenFuel : Nat → St → St
  | 0, s => s
  | n + 1, s =>
    if SEEN_URLS_MAX < s.seen.length then
      match s.seen with
      | [] => s
      | oldest :: rest =>
        pruneSeenFuel n { s with seen := rest, pre := s.pre.erase oldest }
    else s

/-- `prune_seen_urls_if_needed` (src/utils.py lines 71-74): each loop pass
removes one element, so `s.seen.length` fuel always suffices. -/
def pruneSeenUrlsIfNeeded (s : St) : St := pruneSeenFuel s.seen.length s

/-- Outcome of the external yt-dlp calls inside one `download_video` run:
the metadata-extraction result, whether the download subprocess succeeded,
and the size/mtime of the file it would produce. -/
structure DlOutcome where
  meta : Option Meta
  dlSuccess : Bool
  fileSize : Nat
  mtime : Nat
deriving DecidableEq

/-- `video_url.rstrip("/")`. -/
def stripTrailingSlashes (u : String) : String :=
  String.mk ((u.toList.reverse.dropWhile (fun c => c == '/')).reverse)

/-- `video_url.rstrip("/").split("/")[-1]` (downloader.py line 66). -/
def videoIdOf (url : String) : String :=
  ((stripTrailingSlashes url).splitOn "/").getLastD ""

/-- `os.path.join(output_folder, f"(video_id).mp4")` (downloader.py line 67). -/
def outputPathOf (folder url : String) : String :=
  folder ++ "/" ++ videoIdOf url ++ ".mp4"

/-- METADATA_BY_PATH deletion (`pop`). -/
def metaErase (p : String) (m : List (String × Meta)) : List (String × Meta) :=
  m.filter (fun kv => !(kv.1 == p))

/-- METADATA_BY_PATH assignment. -/
def metaInsert (p : String) (v : Meta) (m : List (String × Meta)) :
    List (String × Meta) :=
  (p, v) :: metaErase p m

/-- METADATA_BY_PATH lookup. -/
def metaLookup (p : String) (m : List (String × Meta)) : Option Meta :=
  (m.find? (fun kv => kv.1 == p)).map Prod.snd

/-- The "ensure cache churn" block of `download_video` (downloader.py lines
50-56): when VIDEO_CACHE is at maxlen, pop the oldest, remove its file and
pop its metadata entry, before anything is downloaded. -/
def cacheChurn (s : St) : St :=
  if s.cache.length = CACHE_MAXLEN then
    match s.cache with
    | [] => s
    | old :: rest =>
      { stDelete old s with cache := rest, meta := metaErase old s.meta }
  else s

/-- `collections.deque(maxlen=3).append`: silently drops the oldest element
when already at capacity (VIDEO_QUEUE and VIDEO_CACHE, src/utils.py 19-20). -/
def dequeAppend3 (p : String) (l : List String) : List String :=
  if 3 ≤ l.length then l.tail ++ [p] else l ++ [p]

/-- The duration-window filter `5 <= metadata.get("duration", 0) <= 50`
(downloader.py line 62). -/
def durationOk (m : Meta) : Bool :=
  decide (5 ≤ m.duration.getD 0) && decide (m.duration.getD 0 ≤ 50)

/-- The fallback dict stored when extraction failed (downloader.py line 95). -/
def defaultStoredMeta : Meta := { duration := none, caption := "", hashtags := [] }

/-- Writing a freshly downloaded file into the output directory (yt-dlp -o). -/
def upsertFile (p : String) (size mtime : Nat) (d : List DiskFile) :
    List DiskFile :=
  d.filter (fun f => !(f.path == p)) ++ [{ path := p, size := size,
                                           mtime := mtime, isMp4 := true }]

/-- The download attempt and success tail of `download_video` (downloader.py
lines 66-100): run yt-dlp, and on success store metadata, append to
VIDEO_CACHE, then run `cleanup_files` and `enforce_disk_budget`. -/
def dlFinish (oc : DlOutcome) (env : EnforceEnv) (url folder : String)
    (s1 : St) : St × Option (String × Meta) :=
  if oc.dlSuccess then
    let path := outputPathOf folder url
    let stored := oc.meta.getD defaultStoredMeta
    let s2 := { s1 with disk := upsertFile path oc.fileSize oc.mtime s1.disk }
    let s3 := { s2 with meta := metaInsert path stored s2.meta,
                        cache := dequeAppend3 path s2.cache }
    (enforceDiskBudget env (cleanupFiles s3), some (path, stored))
  else (s1, none)

/-- `download_video` (downloader.py lines 42-100): churn the cache first,
then extract metadata, skip if the duration is outside the window, else
attempt the download.  Returns the state plus
`(output_path, stored_metadata)` on success, `none` on skip/failure. -/
def downloadVideo (oc : DlOutcome) (env : EnforceEnv) (url folder : String)
    (s : St) : St × Option (String × Meta) :=
  let s1 := cacheChurn s
  match oc.meta with
  | some m =>
    if durationOk m then dlFinish oc env url folder s1 else (s1, none)
  | none => dlFinish oc env url folder s1

/-- `_handle_next_action` (src/main.py lines 242-267).  The second component
is the video path passed to `send_video`, or `none` when nothing was sent.
Fidelity point: `from utills import CURRENT_INDEX` at line 246 snapshots the
index at function entry (`ci0` below); the guard and subscript at lines
266-267 use this snapshot, while `PLAYED_VIDEOS` is the live list. -/
def handleNextAction (oc : DlOutcome) (env : EnforceEnv) (folder : String)
    (s : St) : St × Option String :=
  let ci0 := s.ci
  match s.cache with
  | nextPath :: restC =>
    let s1 := pushPlayedVideo nextPath true { s with cache := restC }
    (s1, if 0 ≤ ci0 ∧ ci0 < (s1.played.length : Int) then
           s1.played.get? ci0.toNat
         else none)
  | [] =>
    match s.queue with
    | nextUrl :: restQ =>
      match downloadVideo oc env nextUrl folder { s with queue := restQ } with
      | (s1, some pm) =>
        let s2 := pushPlayedVideo pm.1 true s1
        (s2, if 0 ≤ ci0 ∧ ci0 < (s2.played.length : Int) then
               s2.played.get? ci0.toNat
             else none)
      | (s1, none) => (s1, none)
    | [] => (s, none)

/-- The whole-process state relevant to the browser recycler: the `utills`
module state plus `main` module's own `PRELOAD_COUNTER` binding.  `from
utills import PRELOAD_COUNTER` (src/main.py line 50) copies the *value*
at module-load time into `main`'s namespace; `global PRELOAD_COUNTER` inside
`_recycle_browser_if_needed` refers to `main`'s binding, while
`get_fresh_video_link` increments `utills.PRELOAD_COUNTER`
(src/scraper.py line 104).  The two are distinct variables. -/
structure SysSt where
  core : St
  mainCounter : Int
deriving DecidableEq

/-- Process start: `utills` freshly imported, `main.PRELOAD_COUNTER = 0`. -/
def sysInit : SysSt := { core := initSt, mainCounter := 0 }

/-- `get_fresh_video_link` (src/scraper.py lines 85-111), one attempt over a
given candidate ordering (the post-shuffle href list): take the first href
not in PRELOADED_VIDEOS, mark it seen, prune, and increment
`utills.PRELOAD_COUNTER`. -/
def getFreshVideoLink (cands : List String) (sys : SysSt) :
    SysSt × Option String :=
  match cands.find? (fun h => !(decide (h ∈ sys.core.pre))) with
  | some href =>
    let c1 := pruneSeenUrlsIfNeeded (addSeenUrl href sys.core)
    ({ sys with core := { c1 with counter := c1.counter + 1 } }, some href)
  | none => (sys, none)

/-- `_recycle_browser_if_needed` (src/main.py lines 79-98).  `rssMb` is the
value of `current_process_rss_mb() if psutil else -1` (-1 also encodes a
failed sample).  The Bool is whether the browser was restarted; on restart
`main`'s counter binding is reset to 0. -/
def recycleStep (memSoftLimitMB : Int) (rssMb : Int) (sys : SysSt) :
    SysSt × Bool :=
  if (decide (0 < BROWSER_RESTART_PRELOADS) &&
        decide (BROWSER_RESTART_PRELOADS ≤ sys.mainCounter)) ||
     (decide (0 < rssMb) && decide (memSoftLimitMB ≤ rssMb)) then
    ({ sys with mainCounter := 0 }, true)
  else (sys, false)

/-- A push into one of the three bounded containers, for the capacity
invariant: a URL appended to VIDEO_QUEUE, a path appended to VIDEO_CACHE
(both `deque(maxlen=3)`), or a path pushed through `push_played_video`. -/
inductive PushOp : Type
  | pq : String → PushOp
  | pc : String → PushOp
  | ph : String → PushOp

/-- Apply one push. -/
def applyPush (op : PushOp) (s : St) : St :=
  match op with
  | .pq u => { s with queue := dequeAppend3 u s.queue }
  | .pc p => { s with cache := dequeAppend3 p s.cache }
  | .ph p => pushPlayedVideo p true s

/-- Apply a sequence of pushes starting from a state. -/
def applyPushes (ops : List PushOp) (s : St) : St :=
  ops.foldl (fun t op => applyPush op t) s

/-- A `markSeen` trace: fold `add_seen_url` over the hrefs. -/
def runSeenTrace (tr : List String) (s : St) : St :=
  tr.foldl (fun t x => addSeenUrl x t) s

/-- `isSeen`: the membership test `href in PRELOADED_VIDEOS` used by
src/utils.py line 77 and src/scraper.py line 100. -/
def isSeen (s : St) (x : String) : Bool := decide (x ∈ s.pre)

/-- The effective insertions of a trace: the hrefs of the `markSeen` calls
that were not no-ops, in call order. -/
def effIns : List String → St → List String
  | [], _ => []
  | x :: tr, s => (if x ∈ s.pre then [] else [x]) ++ effIns tr (addSeenUrl x s)

/-- The last `n` elements of a list, in order. -/
def lastN (n : Nat) (l : List String) : List String := (l.reverse.take n).reverse

/-- The deletion events `t` performed on top of `s`. -/
def newDeletions (s t : St) : List String := t.delLog.drop s.delLog.length

/-- The cursor invariant I2 of the spec: CURRENT_INDEX is a valid index into
PLAYED_VIDEOS, or -1 exactly when the history is empty. -/
def CursorOk (s : St) : Prop :=
  (s.played = [] → s.ci = -1) ∧
  (s.played ≠ [] → 0 ≤ s.ci ∧ s.ci < (s.played.length : Int))

instance (s : St) : Decidable (CursorOk s) := by
  unfold CursorOk; infer_instance

/-- States reachable by the cursor-touching operations, restricted to pushes
that do not duplicate an entry already in the history (the amendment forced
by the duplicate-path counterexample). -/
inductive ReachD : St → Prop
  | init : ReachD initSt
  | push (s : St) (p : String) : ReachD s → p ∉ s.played →
      ReachD (pushPlayedVideo p true s)
  | prev (s : St) : ReachD s → ReachD (prevOp s)
  | budget (s : St) (env : EnforceEnv) : ReachD s →
      ReachD (enforceDiskBudget env s)
  | cachePush (s : St) (p : String) : ReachD s →
      ReachD { s with cache := dequeAppend3 p s.cache }
  | diskAdd (s : St) (f : DiskFile) : ReachD s →
      ReachD { s with disk := f :: s.disk }

/-- Bundle used in the enforcer proofs: history entries pairwise distinct,
cursor valid, and the cursor points at path `p`. -/
def TrackInv (p : String) (s : St) : Prop :=
  s.played.Nodup ∧ 0 ≤ s.ci ∧ s.ci < (s.played.length : Int) ∧
    s.played.get? s.ci.toNat = some p

/-- `t` extends `s`'s deletion log only with paths other than `p`. -/
def DelSafe (p : String) (s t : St) : Prop :=
  ∃ l, t.delLog = s.delLog ++ l ∧ p ∉ l

/-- Every file of path `p` present in `s` is still present in `t`. -/
def FileSafe (p : String) (s t : St) : Prop :=
  ∀ f, f ∈ s.disk → f.path = p → f ∈ t.disk

/-- History Nodup plus the cursor invariant. -/
def StInv (s : St) : Prop := s.played.Nodup ∧ CursorOk s

/-- Invariant of the seen-URL tracker: the order list is duplicate-free and
at most SEEN_URLS_MAX long, and set membership coincides with presence in
the order list. -/
def SeenInv (s : St) : Prop :=
  s.seen.Nodup ∧ s.seen.length ≤ SEEN_URLS_MAX ∧ ∀ x, x ∈ s.pre ↔ x ∈ s.seen

/-- A 30 MB tracked `.mp4` file. -/
def mp4File (n : String) (size : Nat) : DiskFile :=
  { path := n, size := size, mtime := 0, isMp4 := true }

/-- The spec scenario for the enforcer: quota 100 MB, reserve satisfied. -/
def c1Env : EnforceEnv :=
  { quotaBytes := 100 * 1024 * 1024, reserveBytes := 0, emptyFree := 0 }

/-- 30 MB. -/
def mb30 : Nat := 30 * 1024 * 1024

/-- Four tracked 30 MB files, three in history (cursor on f2) and one in the
ready cache: 120 MB total against a 100 MB quota. -/
def c1St : St :=
  { initSt with
    played := ["f1", "f2", "f3"],
    ci := 1,
    cache := ["f4"],
    disk := [mp4File "f1" mb30, mp4File "f2" mb30,
             mp4File "f3" mb30, mp4File "f4" mb30] }

/-- Environment whose constraints are always violated (quota 0). -/
def c2Env : EnforceEnv := { quotaBytes := 0, reserveBytes := 0, emptyFree := 0 }

/-- Start state for the duplicate-history counterexample: file B is in the
ready cache, files A and B are on disk. -/
def c2Base : St :=
  { initSt with cache := ["B"], disk := [mp4File "A" 10, mp4File "B" 10] }

/-- The same artifact played twice: history [A, A], cursor 1, cache [B]. -/
def c2St : St := pushPlayedVideo "A" true (pushPlayedVideo "A" true c2Base)

/-- Start state for the cursor-invariant counterexample. -/
def c5Base : St := { initSt with disk := [mp4File "A" 10] }

/-- Play A twice, then run the enforcer under violated constraints. -/
def c5St : St :=
  enforceDiskBudget c2Env (pushPlayedVideo "A" true (pushPlayedVideo "A" true c5Base))

/-- State for the stale-cursor evaluation: v1 is displayed (cursor 0), v2 is
ready in the cache. -/
def c7St : St :=
  { initSt with
    played := ["v1"],
    ci := 0,
    cache := ["v2"],
    disk := [mp4File "v1" 5, mp4File "v2" 5] }

/-- A download outcome whose subprocess fails (unused on the cache path). -/
def ocW : DlOutcome := { meta := none, dlSuccess := false, fileSize := 0, mtime := 0 }

/-- A roomy environment: constraints always satisfied. -/
def envW : EnforceEnv :=
  { quotaBytes := 1000000, reserveBytes := 0, emptyFree := 1000000 }

/-- Metadata recorded for artifact e. -/
def c3Met : Meta := { duration := some 10, caption := "cap", hashtags := [] }

/-- Full history [e, b, c] with a metadata entry for e; pushing d evicts e. -/
def c3St : St :=
  { initSt with
    played := ["e", "b", "c"],
    ci := 2,
    meta := [("e", c3Met)],
    disk := [mp4File "e" 5, mp4File "b" 5, mp4File "c" 5, mp4File "d" 5] }

/-- A process state in which `utills.PRELOAD_COUNTER` has reached the restart
threshold after 200 fresh discoveries, while `main.PRELOAD_COUNTER` still
holds its import-time value 0 (no code path ever increments it). -/
def c4Sys : SysSt := { core := { initSt with counter := 200 }, mainCounter := 0 }

/-- Full ready cache for the churn-without-insert evaluation; file a is on
disk with a metadata entry. -/
def c10St : St :=
  { initSt with
    cache := ["a", "b", "c"],
    meta := [("a", c3Met)],
    disk := [mp4File "a" 7, mp4File "b" 7, mp4File "c" 7] }

/-- An outcome whose metadata reports a 99 s duration: outside the 5-50 s
window, so the download is skipped. -/
def c10Oc : DlOutcome :=
  { meta := some { duration := some 99, caption := "", hashtags := [] },
    dlSuccess := true, fileSize := 7, mtime := 0 }

/-- A state with pairwise-distinct history [x, y], cursor on y, both files on
disk, used to witness the amended enforcer safety claim. -/
def c2W : St :=
  { initSt with
    played := ["x", "y"],
    ci := 1,
    disk := [mp4File "x" 10, mp4File "y" 10] }

@[simp]
lemma stDelete_played (p : String) (s : St) : (stDelete p s).played = s.played := by
  unfold stDelete; split <;> rfl

@[simp]
lemma stDelete_ci (p : String) (s : St) : (stDelete p s).ci = s.ci := by
  unfold stDelete; split <;> rfl

@[simp]
lemma stDelete_cache (p : String) (s : St) : (stDelete p s).cache = s.cache := by
  unfold stDelete; split <;> rfl

@[simp]
lemma stDelete_queue (p : String) (s : St) : (stDelete p s).queue = s.queue := by
  unfold stDelete; split <;> rfl

@[simp]
lemma stDelete_meta (p : String) (s : St) : (stDelete p s).meta = s.meta := by
  unfold stDelete; split <;> rfl

@[simp]
lemma cleanupFiles_played (s : St) : (cleanupFiles s).played = s.played := rfl

@[simp]
lemma cleanupFiles_ci (s : St) : (cleanupFiles s).ci = s.ci := rfl

@[simp]
lemma cleanupFiles_cache (s : St) : (cleanupFiles s).cache = s.cache := rfl

@[simp]
lemma cleanupFiles_queue (s : St) : (cleanupFiles s).queue = s.queue := rfl

@[simp]
lemma cleanupFiles_meta (s : St) : (cleanupFiles s).meta = s.meta := rfl

/-- No file of path `p` survives `stDelete p`. -/
lemma stDelete_not_mem (p : String) (s : St) :
    ∀ f ∈ (stDelete p s).disk, f.path ≠ p := by
  intro f hf
  unfold stDelete at hf
  by_cases h : s.disk.any (fun g => g.path == p)
  · rw [if_pos h] at hf
    simp only [List.mem_filter, Bool.not_eq_eq_eq_not, Bool.not_true,
      beq_eq_false_iff_ne] at hf
    exact hf.2
  · rw [if_neg h] at hf
    simp only [List.any_eq_true, beq_iff_eq, not_exists] at h
    push_neg at h
    exact h f hf

/-- Looking up an erased key fails. -/
lemma metaErase_lookup (p : String) (m : List (String × Meta)) :
    metaLookup p (metaErase p m) = none := by
  unfold metaLookup metaErase
  rw [List.find?_eq_none.mpr]
  · rfl
  · intro kv hkv
    simp only [List.mem_filter, Bool.not_eq_eq_eq_not, Bool.not_true] at hkv
    simp [hkv.2]

/-- Claim C1: the spec says the enforcer re-evaluates both budget constraints
after every single deletion and stops as soon as they hold; with quota 100 MB
and four tracked 30 MB files (cursor on f2) it should stop after deleting f1.
The code captures `folder_bytes` in the `constraints_ok` closure before the
loop and never recomputes it, so after deleting f1 (which brings the tracked
bytes to 90 MB ≤ 100 MB, first conjunct) it keeps deleting: it also removes
f3 and f4 and stops only when nothing but the current artifact is left. -/
theorem c1_quota_never_rechecked :
    c1St.played = ["f1", "f2", "f3"] ∧ currentPathOf c1St = some "f2" ∧
    folderSizeBytes (stDelete "f1" c1St).disk ≤ c1Env.quotaBytes ∧
    (enforceDiskBudget c1Env c1St).delLog = ["f1", "f3", "f4"] ∧
    (enforceDiskBudget c1Env c1St).disk.map DiskFile.path = ["f2"] := by
  decide

/-- Claim C2 counterexample: with history [A, A] (the same artifact played
twice) and cursor 1, one iteration of the reclamation ladder deletes the
file A — the very artifact the cursor points at — even though the deletable
candidate B is still sitting in the ready cache.  The state is reachable by
two `push_played_video` calls. -/
theorem c2_counterexample :
    c2St.played = ["A", "A"] ∧ c2St.ci = 1 ∧ currentPathOf c2St = some "A" ∧
    c2St.cache = ["B"] ∧ c2St.disk.map DiskFile.path = ["A", "B"] ∧
    (budgetBody c2St).1.delLog = ["A"] ∧ (budgetBody c2St).1.cache = ["B"] ∧
    "A" ∈ (enforceDiskBudget c2Env c2St).delLog := by
  decide

/-- Claim C5 counterexample: pushing A twice and then running the enforcer
under violated constraints leaves the history empty with CURRENT_INDEX = 0
(the pop-index-1 branch of the enforcer does not adjust the cursor), so the
cursor is neither a valid index nor -1-iff-empty. -/
theorem c5_counterexample : c5St.played = [] ∧ c5St.ci = 0 ∧ ¬ CursorOk c5St := by
  decide

/-- Claim C3 counterexample: pushing d into the full history [e, b, c]
evicts e and deletes its file exactly once, but the metadata entry for e is
NOT removed — `push_played_video` never touches METADATA_BY_PATH — so the
claim that every eviction also removes the metadata entry fails. -/
theorem c3_counterexample :
    c3St.played.length = HISTORY_MAX ∧
    (pushPlayedVideo "d" true c3St).delLog = ["e"] ∧
    metaLookup "e" (pushPlayedVideo "d" true c3St).meta = some c3Met := by
  decide

/-- Claim C7: on a Next press the artifact is appended with the cursor set to
length-1 (first two conjuncts hold), but the artifact actually presented is
read through the stale `CURRENT_INDEX` snapshot imported at function entry:
the handler re-presents v1, not the newly appended v2 at the cursor. -/
theorem c7_stale_cursor_eval :
    (handleNextAction ocW envW "downloads" c7St).1.played = ["v1", "v2"] ∧
    (handleNextAction ocW envW "downloads" c7St).1.ci = 1 ∧
    (handleNextAction ocW envW "downloads" c7St).1.played.get?
      (handleNextAction ocW envW "downloads" c7St).1.ci.toNat = some "v2" ∧
    (handleNextAction ocW envW "downloads" c7St).2 = some "v1" := by
  decide

/-- Claim C8: a Next request with both the ready cache and the discovery
queue empty returns the explicit nothing-available outcome: no artifact is
served and the whole state (history, cursor, containers, disk) is unchanged;
the handler returns in one pass without retrying. -/
theorem c8_next_empty_not_found (oc : DlOutcome) (env : EnforceEnv)
    (folder : String) (s : St) (hc : s.cache = []) (hq : s.queue = []) :
    handleNextAction oc env folder s = (s, none) := by
  unfold handleNextAction
  rw [hc, hq]

/-- Witness for C8 at a concrete state. -/
theorem c8_next_empty_not_found_witness :
    initSt.cache = [] ∧ initSt.queue = [] ∧
    handleNextAction ocW envW "downloads" initSt = (initSt, none) :=
  ⟨rfl, rfl, c8_next_empty_not_found ocW envW "downloads" initSt rfl rfl⟩

/-- When the cache is full, `cacheChurn` is the pop-delete-purge step. -/
lemma cacheChurn_full (s : St) (old : String) (rest : List String)
    (hc : s.cache = old :: rest) (hlen : s.cache.length = CACHE_MAXLEN) :
    cacheChurn s =
      { stDelete old s with cache := rest, meta := metaErase old s.meta } := by
  unfold cacheChurn
  rw [if_pos hlen, hc]

/-- Claim C10: when a download is requested with the ready cache at capacity,
the oldest cached artifact is popped, its file deleted and its metadata entry
purged before the download is attempted; if the download is then skipped for
duration or its subprocess fails, the run returns exactly the churned state
with no insertion — the cache shrank by one without anything replacing it. -/
theorem c10_churn_before_download (oc : DlOutcome) (env : EnforceEnv)
    (url folder : String) (s : St) (old : String) (rest : List String)
    (hc : s.cache = old :: rest) (hlen : s.cache.length = CACHE_MAXLEN)
    (hfail : oc.dlSuccess = false ∨
      ∃ m, oc.meta = some m ∧ durationOk m = false) :
    downloadVideo oc env url folder s = (cacheChurn s, none) ∧
    (cacheChurn s).cache = rest ∧
    (cacheChurn s).played = s.played ∧
    metaLookup old (cacheChurn s).meta = none ∧
    ∀ f ∈ (cacheChurn s).disk, f.path ≠ old := by
  have hch := cacheChurn_full s old rest hc hlen
  refine ⟨?_, ?_, ?_, ?_, ?_⟩
  · unfold downloadVideo dlFinish
    cases hm : oc.meta with
    | none =>
      rcases hfail with hdl | ⟨m, hm2, _⟩
      · simp [hm, hdl]
      · rw [hm] at hm2; exact absurd hm2 (by simp)
    | some m =>
      by_cases hd : durationOk m
      · rcases hfail with hdl | ⟨m2, hm2, hd2⟩
        · simp [hm, hd, hdl]
        · rw [hm] at hm2
          obtain rfl : m = m2 := by injection hm2
          exact absurd hd (by simp [hd2])
      · simp [hm, hd]
  · rw [hch]
  · rw [hch]; simp
  · rw [hch]; exact metaErase_lookup old s.meta
  · rw [hch]
    exact stDelete_not_mem old s

/-- Witness for C10: a full cache [a, b, c] and a 99 s video: the download is
skipped but the cache has already shrunk to [b, c] and a's file and metadata
are gone. -/
theorem c10_churn_before_download_witness :
    c10St.cache = "a" :: ["b", "c"] ∧ c10St.cache.length = CACHE_MAXLEN ∧
    (c10Oc.dlSuccess = false ∨
      ∃ m, c10Oc.meta = some m ∧ durationOk m = false) ∧
    downloadVideo c10Oc envW "u" "downloads" c10St = (cacheChurn c10St, none) ∧
    (cacheChurn c10St).cache = ["b", "c"] := by
  have h := c10_churn_before_download c10Oc envW "u" "downloads" c10St "a"
    ["b", "c"] rfl rfl
    (Or.inr ⟨{ duration := some 99, caption := "", hashtags := [] }, rfl, rfl⟩)
  exact ⟨rfl, rfl,
    Or.inr ⟨{ duration := some 99, caption := "", hashtags := [] }, rfl, rfl⟩,
    h.1, h.2.1⟩

@[simp]
lemma addSeenUrl_counter (x : String) (s : St) :
    (addSeenUrl x s).counter = s.counter := by
  unfold addSeenUrl
  split
  · rfl
  · split
    · split <;> rfl
    · rfl

lemma pruneSeenFuel_counter (n : Nat) (s : St) :
    (pruneSeenFuel n s).counter = s.counter := by
  induction n generalizing s with
  | zero => rfl
  | succ n ih =>
    unfold pruneSeenFuel
    split
    · split
      · rfl
      · exact ih _
    · rfl

@[simp]
lemma pruneSeenUrlsIfNeeded_counter (s : St) :
    (pruneSeenUrlsIfNeeded s).counter = s.counter :=
  pruneSeenFuel_counter _ _

/-- Claim C4: the spec says the recycler restarts exactly when the preload
counter — the one incremented once per freshly queued identifier — reaches
200, or the sampled memory reaches the soft limit, and that the restart
resets that counter.  In the code `get_fresh_video_link` increments
`utills.PRELOAD_COUNTER` (conjunct 2) but never `main`'s import-time copy
(conjunct 1); `_recycle_browser_if_needed` reads and resets only `main`'s
copy, which starts at 0 (conjunct 3) and is never incremented, so with the
incremented counter at the threshold and memory unavailable (rss = -1) or
below the limit (rss = 500 < 1200) no restart happens. -/
theorem c4_recycler_reads_wrong_counter :
    (∀ cands sys, (getFreshVideoLink cands sys).1.mainCounter = sys.mainCounter) ∧
    (∀ cands sys s2 href, getFreshVideoLink cands sys = (s2, some href) →
      s2.core.counter = sys.core.counter + 1) ∧
    sysInit.mainCounter = 0 ∧ c4Sys.core.counter = 200 ∧
    recycleStep 1200 (-1) c4Sys = (c4Sys, false) ∧
    recycleStep 1200 500 c4Sys = (c4Sys, false) := by
  refine ⟨?_, ?_, rfl, rfl, by decide, by decide⟩
  · intro cands sys
    unfold getFreshVideoLink
    cases hfind : cands.find? (fun h => !(decide (h ∈ sys.core.pre))) <;> rfl
  · intro cands sys s2 href heq
    unfold getFreshVideoLink at heq
    cases hfind : cands.find? (fun h => !(decide (h ∈ sys.core.pre))) with
    | none =>
      rw [hfind] at heq
      exact absurd (congrArg Prod.snd heq) (by simp)
    | some h =>
      rw [hfind] at heq
      have : s2 = { sys with
          core := { pruneSeenUrlsIfNeeded (addSeenUrl h sys.core) with
            counter :=
              (pruneSeenUrlsIfNeeded (addSeenUrl h sys.core)).counter + 1 } } := by
        have := congrArg Prod.fst heq
        simpa using this.symm
      rw [this]
      simp

/-- What `push_played_video` does to the history list: append, and drop the
head when the capacity is exceeded. -/
lemma pushPlayedVideo_played (p : String) (u : Bool) (s : St) :
    (pushPlayedVideo p u s).played =
      if HISTORY_MAX < s.played.length + 1 then (s.played ++ [p]).tail
      else s.played ++ [p] := by
  cases hpl : s.played with
  | nil => simp [pushPlayedVideo, hpl, HISTORY_MAX, apply_ite St.played]
  | cons a t =>
    by_cases hb : HISTORY_MAX < (a :: t).length + 1 <;>
      simp [pushPlayedVideo, hpl, hb, apply_ite St.played]

@[simp]
lemma pushPlayedVideo_queue (p : String) (u : Bool) (s : St) :
    (pushPlayedVideo p u s).queue = s.queue := by
  cases hpl : s.played with
  | nil => simp [pushPlayedVideo, hpl, HISTORY_MAX, apply_ite St.queue]
  | cons a t => simp [pushPlayedVideo, hpl, apply_ite St.queue]

@[simp]
lemma pushPlayedVideo_cache (p : String) (u : Bool) (s : St) :
    (pushPlayedVideo p u s).cache = s.cache := by
  cases hpl : s.played with
  | nil => simp [pushPlayedVideo, hpl, HISTORY_MAX, apply_ite St.cache]
  | cons a t => simp [pushPlayedVideo, hpl, apply_ite St.cache]

@[simp]
lemma pushPlayedVideo_meta (p : String) (u : Bool) (s : St) :
    (pushPlayedVideo p u s).meta = s.meta := by
  cases hpl : s.played with
  | nil => simp [pushPlayedVideo, hpl, HISTORY_MAX, apply_ite St.meta]
  | cons a t => simp [pushPlayedVideo, hpl, apply_ite St.meta]

/-- A deque append keeps the length within the bound. -/
lemma dequeAppend3_length (p : String) (l : List String) (h : l.length ≤ 3) :
    (dequeAppend3 p l).length ≤ 3 := by
  unfold dequeAppend3
  split <;> simp [List.length_tail] <;> omega

/-- `push_played_video` keeps the history within HISTORY_MAX. -/
lemma pushPlayedVideo_length (p : String) (u : Bool) (s : St)
    (h : s.played.length ≤ HISTORY_MAX) :
    (pushPlayedVideo p u s).played.length ≤ HISTORY_MAX := by
  rw [pushPlayedVideo_played]
  split <;> simp [List.length_tail, HISTORY_MAX] at * <;> omega

/-- One push preserves the three capacity bounds. -/
lemma applyPush_cap (op : PushOp) (s : St)
    (h : s.queue.length ≤ 3 ∧ s.cache.length ≤ 3 ∧ s.played.length ≤ 3) :
    (applyPush op s).queue.length ≤ 3 ∧ (applyPush op s).cache.length ≤ 3 ∧
      (applyPush op s).played.length ≤ 3 := by
  obtain ⟨h1, h2, h3⟩ := h
  cases op with
  | pq u => exact ⟨dequeAppend3_length _ _ h1, h2, h3⟩
  | pc p => exact ⟨h1, dequeAppend3_length _ _ h2, h3⟩
  | ph p =>
    refine ⟨?_, ?_, pushPlayedVideo_length p true s h3⟩
    · rw [show (applyPush (PushOp.ph p) s).queue = s.queue from
        pushPlayedVideo_queue p true s]; exact h1
    · rw [show (applyPush (PushOp.ph p) s).cache = s.cache from
        pushPlayedVideo_cache p true s]; exact h2

/-- Any push sequence preserves the three capacity bounds. -/
lemma applyPushes_cap (ops : List PushOp) (s : St)
    (h : s.queue.length ≤ 3 ∧ s.cache.length ≤ 3 ∧ s.played.length ≤ 3) :
    (applyPushes ops s).queue.length ≤ 3 ∧
      (applyPushes ops s).cache.length ≤ 3 ∧
      (applyPushes ops s).played.length ≤ 3 := by
  induction ops generalizing s with
  | nil => exact h
  | cons op ops ih => exact ih _ (applyPush_cap op s h)

/-- Claim C9: over every sequence of pushes from the start state, the
discovery queue, the ready cache and the history never exceed 3 elements;
and when the cache or the history is full, the next push evicts exactly the
oldest element. -/
theorem c9_capacity_bound (ops : List PushOp) :
    (applyPushes ops initSt).queue.length ≤ 3 ∧
    (applyPushes ops initSt).cache.length ≤ 3 ∧
    (applyPushes ops initSt).played.length ≤ 3 ∧
    (∀ p, (applyPushes ops initSt).cache.length = 3 →
      (applyPush (PushOp.pc p) (applyPushes ops initSt)).cache =
        (applyPushes ops initSt).cache.tail ++ [p]) ∧
    (∀ p h t, (applyPushes ops initSt).played = h :: t →
      (applyPushes ops initSt).played.length = 3 →
      (applyPush (PushOp.ph p) (applyPushes ops initSt)).played = t ++ [p]) := by
  obtain ⟨h1, h2, h3⟩ := applyPushes_cap ops initSt (by simp [initSt])
  refine ⟨h1, h2, h3, ?_, ?_⟩
  · intro p hfull
    show dequeAppend3 p (applyPushes ops initSt).cache = _
    unfold dequeAppend3
    rw [if_pos (by omega)]
  · intro p h t hpl hfull
    show (pushPlayedVideo p true (applyPushes ops initSt)).played = _
    rw [pushPlayedVideo_played, if_pos (by rw [hfull]; decide), hpl]
    rfl

/-- Witness for C9: three cache pushes fill the cache; the fourth evicts the
oldest. -/
theorem c9_capacity_bound_witness :
    (applyPushes [PushOp.pc "a", PushOp.pc "b", PushOp.pc "c"] initSt).cache.length = 3 ∧
    (applyPush (PushOp.pc "d")
      (applyPushes [PushOp.pc "a", PushOp.pc "b", PushOp.pc "c"] initSt)).cache =
      ["b", "c", "d"] := by
  refine ⟨by decide, ?_⟩
  have h := (c9_capacity_bound [PushOp.pc "a", PushOp.pc "b", PushOp.pc "c"]).2.2.2.1
    "d" (by decide)
  rw [h]
  decide

/-- The deletion log after `safe_delete`. -/
lemma stDelete_delLog (p : String) (s : St) :
    (stDelete p s).delLog =
      s.delLog ++ (if s.disk.any (fun f => f.path == p) then [p] else []) := by
  unfold stDelete
  split <;> simp_all

/-- `safe_delete` only removes files. -/
lemma stDelete_disk_subset (p : String) (s : St) :
    ∀ f ∈ (stDelete p s).disk, f ∈ s.disk := by
  unfold stDelete
  split
  · intro f hf; exact (List.mem_filter.mp hf).1
  · intro f hf; exact hf

/-- `cleanup_files` logs no deletion of a path that is not on disk. -/
lemma cleanupFiles_count_nodisk (q : String) (s : St)
    (h : ∀ f ∈ s.disk, f.path ≠ q) :
    (cleanupFiles s).delLog.count q = s.delLog.count q := by
  unfold cleanupFiles
  simp only [List.count_append]
  have hz : ((s.disk.filter
      (fun f => f.isMp4 && !((keepPaths s).contains f.path))).map
        DiskFile.path).count q = 0 := by
    rw [List.count_eq_zero]
    intro hq
    obtain ⟨f, hf, hfq⟩ := List.mem_map.mp hq
    exact h f (List.mem_filter.mp hf).1 hfq
  rw [hz]
  omega

/-- `cleanup_files` logs no deletion of a protected path. -/
lemma cleanupFiles_count_keep (q : String) (s : St) (h : q ∈ keepPaths s) :
    (cleanupFiles s).delLog.count q = s.delLog.count q := by
  unfold cleanupFiles
  simp only [List.count_append]
  have hz : ((s.disk.filter
      (fun f => f.isMp4 && !((keepPaths s).contains f.path))).map
        DiskFile.path).count q = 0 := by
    rw [List.count_eq_zero]
    intro hq
    obtain ⟨f, hf, hfq⟩ := List.mem_map.mp hq
    have := (List.mem_filter.mp hf).2
    rw [hfq] at this
    simp only [Bool.and_eq_true, Bool.not_eq_eq_eq_not, Bool.not_true] at this
    rw [List.contains_eq_any_beq] at this
    have hmem : (keepPaths s).any (fun x => q == x) = true := by
      rw [List.any_eq_true]
      exact ⟨q, h, by simp⟩
    rw [hmem] at this
    exact absurd this.2 (by simp)
  rw [hz]
  omega

/-- `cleanup_files` keeps every file of a protected path. -/
lemma cleanupFiles_mem_keep (s : St) (f : DiskFile) (hf : f ∈ s.disk)
    (h : f.path ∈ keepPaths s) : f ∈ (cleanupFiles s).disk := by
  unfold cleanupFiles
  simp only [List.mem_filter]
  refine ⟨hf, ?_⟩
  have : (keepPaths s).contains f.path = true := by
    rw [List.contains_eq_any_beq, List.any_eq_true]
    exact ⟨f.path, h, by simp⟩
  simp only [this, Bool.or_true]

/-- `cleanup_files` only removes files. -/
lemma cleanupFiles_disk_subset (s : St) :
    ∀ f ∈ (cleanupFiles s).disk, f ∈ s.disk := by
  intro f hf
  exact (List.mem_filter.mp hf).1

/-- `push_played_video` under eviction, when the evicted path differs from
the pushed one: the head is popped, its file deleted, the cursor adjusted,
then the final cleanup runs. -/
lemma pushPlayedVideo_evict_ne (p : String) (u : Bool) (s : St)
    (ev : String) (rest : List String) (hpl : s.played = ev :: rest)
    (hlen : HISTORY_MAX < s.played.length + 1) (hne : ev ≠ p) :
    pushPlayedVideo p u s =
      cleanupFiles
        { stDelete ev { s with played := rest ++ [p] } with
          ci := if u then ((rest ++ [p]).length : Int) - 1
                else if 0 < s.ci then s.ci - 1 else s.ci } := by
  have hb2 : HISTORY_MAX < rest.length + 1 + 1 := by
    simpa [hpl] using hlen
  cases u <;> simp [pushPlayedVideo, hpl, hb2, hne]

/-- `push_played_video` under eviction, when the evicted path equals the
pushed one: no deletion happens. -/
lemma pushPlayedVideo_evict_eq (p : String) (u : Bool) (s : St)
    (rest : List String) (hpl : s.played = p :: rest)
    (hlen : HISTORY_MAX < s.played.length + 1) :
    pushPlayedVideo p u s =
      cleanupFiles
        { s with
          played := rest ++ [p],
          ci := if u then ((rest ++ [p]).length : Int) - 1
                else if 0 < s.ci then s.ci - 1 else s.ci } := by
  have hb2 : HISTORY_MAX < rest.length + 1 + 1 := by
    simpa [hpl] using hlen
  cases u <;> simp [pushPlayedVideo, hpl, hb2]

/-- Claim C3 (amended): on a ReadyCache eviction in `download_video` the
evicted artifact's file is deleted (exactly once when it was on disk) and its
metadata entry removed, unconditionally — before the download, so without
regard to whether the path later inserted equals it.  On a HistoryLog
eviction in `push_played_video` the evicted file is deleted exactly once
unless the evicted path equals the newly pushed path, but its metadata entry
is NOT removed (amendment forced by the counterexample): METADATA_BY_PATH is
untouched by `push_played_video`. -/
theorem c3_amended :
    (∀ s old rest, s.cache = old :: rest → s.cache.length = CACHE_MAXLEN →
      (cacheChurn s).cache = rest ∧
      metaLookup old (cacheChurn s).meta = none ∧
      (∀ f ∈ (cacheChurn s).disk, f.path ≠ old) ∧
      (cacheChurn s).delLog.count old =
        s.delLog.count old +
          (if s.disk.any (fun f => f.path == old) then 1 else 0)) ∧
    (∀ s p ev rest, s.played = ev :: rest →
      HISTORY_MAX < s.played.length + 1 →
      metaLookup ev (pushPlayedVideo p true s).meta = metaLookup ev s.meta ∧
      (ev ≠ p →
        (∀ f ∈ (pushPlayedVideo p true s).disk, f.path ≠ ev) ∧
        (pushPlayedVideo p true s).delLog.count ev =
          s.delLog.count ev +
            (if s.disk.any (fun f => f.path == ev) then 1 else 0)) ∧
      (ev = p →
        (pushPlayedVideo p true s).delLog.count ev = s.delLog.count ev ∧
        ∀ f ∈ s.disk, f.path = ev → f ∈ (pushPlayedVideo p true s).disk)) := by
  constructor
  · intro s old rest hc hlen
    rw [cacheChurn_full s old rest hc hlen]
    refine ⟨rfl, metaErase_lookup old s.meta, stDelete_not_mem old s, ?_⟩
    show (stDelete old s).delLog.count old = _
    rw [stDelete_delLog]
    split <;> simp [List.count_append]
  · intro s p ev rest hpl hlen
    refine ⟨by rw [pushPlayedVideo_meta], ?_, ?_⟩
    · intro hne
      rw [pushPlayedVideo_evict_ne p true s ev rest hpl hlen hne]
      constructor
      · intro f hf
        have hf2 := cleanupFiles_disk_subset _ f hf
        exact stDelete_not_mem ev _ f hf2
      · rw [cleanupFiles_count_nodisk]
        · show (stDelete ev { s with played := rest ++ [p] }).delLog.count ev = _
          rw [stDelete_delLog]
          split <;> simp [List.count_append]
        · intro f hf
          exact stDelete_not_mem ev _ f hf
    · intro heq
      subst heq
      rw [pushPlayedVideo_evict_eq ev true s rest hpl hlen]
      constructor
      · rw [cleanupFiles_count_keep]
        simp [keepPaths]
      · intro f hf hfp
        exact cleanupFiles_mem_keep _ f hf (by simp [keepPaths, hfp])

/-- Witness for C3 (amended), at the concrete eviction of e by d: file
deleted exactly once, metadata retained. -/
theorem c3_amended_witness :
    c3St.played = "e" :: ["b", "c"] ∧
    HISTORY_MAX < c3St.played.length + 1 ∧
    (pushPlayedVideo "d" true c3St).delLog.count "e" =
      c3St.delLog.count "e" +
        (if c3St.disk.any (fun f => f.path == "e") then 1 else 0) ∧
    metaLookup "e" (pushPlayedVideo "d" true c3St).meta =
      metaLookup "e" c3St.meta := by
  have h := c3_amended.2 c3St "d" "e" ["b", "c"] rfl (by decide)
  exact ⟨rfl, by decide, (h.2.1 (by decide)).2, h.1⟩

/-- The tracked path is in the history. -/
lemma trackInv_mem (p : String) (s : St) (h : TrackInv p s) : p ∈ s.played :=
  List.get?_mem h.2.2.2

/-- Under TrackInv the enforcer's `current_path` is the tracked path. -/
lemma trackInv_current (p : String) (s : St) (h : TrackInv p s) :
    currentPathOf s = some p := by
  unfold currentPathOf
  rw [if_pos ⟨h.2.1, h.2.2.1⟩]
  exact h.2.2.2

/-- If the tracked path is the head of a duplicate-free history, the cursor
is 0. -/
lemma trackInv_head (p : String) (s : St) (rest : List String)
    (h : TrackInv p s) (hpl : s.played = p :: rest) : s.ci = 0 := by
  obtain ⟨hnd, h0, h1, hget⟩ := h
  by_contra hne
  have hpos : 1 ≤ s.ci.toNat := by omega
  obtain ⟨m, hm⟩ : ∃ m, s.ci.toNat = m + 1 := ⟨s.ci.toNat - 1, by omega⟩
  rw [hpl, hm, List.get?_cons_succ] at hget
  have hmem : p ∈ rest := List.get?_mem hget
  rw [hpl, List.nodup_cons] at hnd
  exact hnd.1 hmem

/-- If the head of the history is not the tracked path, the cursor is
positive. -/
lemma trackInv_pos (p oldest : String) (rest : List String) (s : St)
    (h : TrackInv p s) (hpl : s.played = oldest :: rest) (hne : oldest ≠ p) :
    0 < s.ci := by
  obtain ⟨hnd, h0, h1, hget⟩ := h
  rcases Nat.eq_zero_or_pos s.ci.toNat with hz | hpos
  · rw [hpl, hz, List.get?_cons_zero] at hget
    exact absurd (Option.some.inj hget) hne
  · omega

lemma delSafe_refl (p : String) (s : St) : DelSafe p s s :=
  ⟨[], by simp, by simp⟩

lemma delSafe_trans (p : String) (s t u : St) (h1 : DelSafe p s t)
    (h2 : DelSafe p t u) : DelSafe p s u := by
  obtain ⟨l1, hl1, hn1⟩ := h1
  obtain ⟨l2, hl2, hn2⟩ := h2
  exact ⟨l1 ++ l2, by rw [hl2, hl1, List.append_assoc], by
    simp only [List.mem_append]
    rintro (h | h)
    · exact hn1 h
    · exact hn2 h⟩

lemma fileSafe_refl (p : String) (s : St) : FileSafe p s s :=
  fun _ hf _ => hf

lemma fileSafe_trans (p : String) (s t u : St) (h1 : FileSafe p s t)
    (h2 : FileSafe p t u) : FileSafe p s u :=
  fun f hf hfp => h2 f (h1 f hf hfp) hfp

/-- Deleting a different path never logs the tracked one. -/
lemma stDelete_delSafe (q p : String) (hne : q ≠ p) (s : St) :
    DelSafe p s (stDelete q s) := by
  refine ⟨if s.disk.any (fun f => f.path == q) then [q] else [], stDelete_delLog q s, ?_⟩
  split <;> simp [Ne.symm hne]

/-- Deleting a different path keeps the tracked one's files. -/
lemma stDelete_fileSafe (q p : String) (hne : q ≠ p) (s : St) :
    FileSafe p s (stDelete q s) := by
  intro f hf hfp
  unfold stDelete
  split
  · exact List.mem_filter.mpr ⟨hf, by simp [hfp]; exact Ne.symm (hfp ▸ hne)⟩
  · exact hf

/-- `cleanup_files` never logs a protected path. -/
lemma cleanupFiles_delSafe (p : String) (s : St) (hp : p ∈ keepPaths s) :
    DelSafe p s (cleanupFiles s) := by
  refine ⟨_, rfl, ?_⟩
  intro hmem
  obtain ⟨f, hf, hfq⟩ := List.mem_map.mp hmem
  have h2 := (List.mem_filter.mp hf).2
  rw [hfq] at h2
  simp only [Bool.and_eq_true, Bool.not_eq_eq_eq_not, Bool.not_true] at h2
  have hcont : (keepPaths s).contains p = true := by
    rw [List.contains_eq_any_beq, List.any_eq_true]
    exact ⟨p, hp, by simp⟩
  rw [hcont] at h2
  exact absurd h2.2 (by simp)

/-- `cleanup_files` keeps every file of a protected path. -/
lemma cleanupFiles_fileSafe (p : String) (s : St) (hp : p ∈ keepPaths s) :
    FileSafe p s (cleanupFiles s) := by
  intro f hf hfp
  exact cleanupFiles_mem_keep s f hf (by rw [hfp]; exact hp)

/-- The mtime minimum is taken over the candidate list. -/
lemma pickOldestMtime_mem (l : List DiskFile) (f : DiskFile)
    (h : pickOldestMtime l = some f) : f ∈ l := by
  induction l with
  | nil => exact absurd h (by simp [pickOldestMtime])
  | cons g gs ih =>
    unfold pickOldestMtime at h
    cases hrec : pickOldestMtime gs with
    | none =>
      rw [hrec] at h
      injection h with h
      exact h ▸ List.mem_cons_self g gs
    | some g2 =>
      rw [hrec] at h
      dsimp only at h
      by_cases hlt : g2.mtime < g.mtime
      · rw [if_pos hlt] at h
        injection h with h
        exact List.mem_cons_of_mem g (ih (h ▸ hrec))
      · rw [if_neg hlt] at h
        injection h with h
        exact h ▸ List.mem_cons_self g gs

/-- When the history branch deletes nothing, the rest of the ladder
iteration leaves the history and the cursor untouched and never deletes a
path that is in the history. -/
lemma budgetBody_none_effects (p : String) (s : St)
    (hh : historyStep s = none) (hpmem : p ∈ s.played) :
    (budgetBody s).1.played = s.played ∧ (budgetBody s).1.ci = s.ci ∧
      DelSafe p s (budgetBody s).1 ∧ FileSafe p s (budgetBody s).1 := by
  unfold budgetBody
  rw [hh]
  cases hc : s.cache with
  | cons old restC =>
    simp only
    by_cases hop : old ∈ s.played
    · rw [if_pos hop]
      exact ⟨rfl, rfl, delSafe_refl p _, fileSafe_refl p _⟩
    · rw [if_neg hop]
      have hne : old ≠ p := fun hl => hop (hl ▸ hpmem)
      exact ⟨by simp, by simp,
        stDelete_delSafe old p hne { s with cache := restC },
        stDelete_fileSafe old p hne { s with cache := restC }⟩
  | nil =>
    cases hpick : pickOldestMtime (untrackedCandidates s) with
    | some f =>
      have hfmem := pickOldestMtime_mem _ f hpick
      have hnk : f.path ∉ keepPaths s := by
        have h2 := (List.mem_filter.mp hfmem).2
        simp only [Bool.and_eq_true, Bool.not_eq_eq_eq_not, Bool.not_true] at h2
        intro hmem
        have hcont : (keepPaths s).contains f.path = true := by
          rw [List.contains_eq_any_beq, List.any_eq_true]
          exact ⟨f.path, hmem, by simp⟩
        rw [hcont] at h2
        exact absurd h2.2 (by simp)
      have hne : f.path ≠ p := fun he =>
        hnk (he ▸ List.mem_append_left _ hpmem)
      exact ⟨by simp, by simp, stDelete_delSafe _ p hne s,
        stDelete_fileSafe _ p hne s⟩
    | none => exact ⟨rfl, rfl, delSafe_refl p s, fileSafe_refl p s⟩

/-- One ladder iteration, on a duplicate-free history with a valid cursor:
the cursor keeps tracking the same path, and that path is neither logged as
deleted nor removed from disk. -/
lemma budgetBody_track (p : String) (s : St) (h : TrackInv p s) :
    TrackInv p (budgetBody s).1 ∧ DelSafe p s (budgetBody s).1 ∧
      FileSafe p s (budgetBody s).1 := by
  have hpmem : p ∈ s.played := trackInv_mem p s h
  have hcur := trackInv_current p s h
  obtain ⟨hnd, h0, h1, hget⟩ := h
  cases hpl : s.played with
  | nil =>
    rw [hpl] at h1
    simp only [List.length_nil, Nat.cast_zero] at h1
    exact absurd h0 (by omega)
  | cons ev rest =>
    by_cases hev : ev = p
    · rw [hev] at hpl
      have hci0 : s.ci = 0 := trackInv_head p s rest ⟨hnd, h0, h1, hget⟩ hpl
      cases rest with
      | nil =>
        have hh : historyStep s = none := by
          simp [historyStep, hpl, hcur]
        obtain ⟨e1, e2, e3, e4⟩ := budgetBody_none_effects p s hh hpmem
        refine ⟨⟨?_, ?_, ?_, ?_⟩, e3, e4⟩
        · rw [e1]; exact hnd
        · rw [e2]; exact h0
        · rw [e1, e2]; exact h1
        · rw [e1, e2]; exact hget
      | cons second rest2 =>
        have hsp : second ≠ p := by
          rw [hpl, List.nodup_cons] at hnd
          intro he
          exact hnd.1 (he ▸ List.mem_cons_self second rest2)
        have hh : historyStep s =
            some { stDelete second s with played := p :: rest2 } := by
          simp [historyStep, hpl, hcur]
        have hbb : (budgetBody s).1 =
            { stDelete second s with played := p :: rest2 } := by
          unfold budgetBody
          rw [hh]
        rw [hbb]
        refine ⟨⟨?_, ?_, ?_, ?_⟩, ?_, ?_⟩
        · rw [hpl] at hnd
          exact List.Nodup.sublist
            (List.Sublist.cons₂ p ((List.Sublist.refl rest2).cons second)) hnd
        · dsimp only
          rw [stDelete_ci]
          exact h0
        · dsimp only
          rw [stDelete_ci, hci0]
          exact_mod_cast Nat.succ_pos rest2.length
        · dsimp only
          rw [stDelete_ci, hci0]
          rfl
        · exact stDelete_delSafe second p hsp s
        · exact stDelete_fileSafe second p hsp s
    · have hpos : 0 < s.ci := trackInv_pos p ev rest s ⟨hnd, h0, h1, hget⟩ hpl hev
      have hh : historyStep s =
          some { stDelete ev s with played := rest, ci := s.ci - 1 } := by
        simp [historyStep, hpl, hcur, hev, hpos]
      have hbb : (budgetBody s).1 =
          { stDelete ev s with played := rest, ci := s.ci - 1 } := by
        unfold budgetBody
        rw [hh]
      rw [hbb]
      refine ⟨⟨?_, ?_, ?_, ?_⟩, ?_, ?_⟩
      · rw [hpl, List.nodup_cons] at hnd
        exact hnd.2
      · show (0 : Int) ≤ s.ci - 1
        omega
      · show s.ci - 1 < (rest.length : Int)
        rw [hpl] at h1
        simp only [List.length_cons] at h1
        push_cast at h1 ⊢
        omega
      · show rest.get? (s.ci - 1).toNat = some p
        rw [hpl] at hget
        obtain ⟨m, hm⟩ : ∃ m, s.ci.toNat = m + 1 := ⟨s.ci.toNat - 1, by omega⟩
        rw [hm, List.get?_cons_succ] at hget
        have hm2 : (s.ci - 1).toNat = m := by omega
        rw [hm2]
        exact hget
      · exact stDelete_delSafe ev p hev s
      · exact stDelete_fileSafe ev p hev s

/-- The full reclamation loop keeps tracking the cursor path and never
deletes it. -/
lemma budgetLoop_track (p : String) (env : EnforceEnv) (fb : Nat) (n : Nat)
    (s : St) (h : TrackInv p s) :
    TrackInv p (budgetLoop env fb n s) ∧ DelSafe p s (budgetLoop env fb n s) ∧
      FileSafe p s (budgetLoop env fb n s) := by
  induction n generalizing s with
  | zero => exact ⟨h, delSafe_refl p s, fileSafe_refl p s⟩
  | succ n ih =>
    unfold budgetLoop
    split
    · exact ⟨h, delSafe_refl p s, fileSafe_refl p s⟩
    · split
      · exact budgetBody_track p s h
      · obtain ⟨t1, t2, t3⟩ := budgetBody_track p s h
        obtain ⟨g1, g2, g3⟩ := ih (budgetBody s).1 t1
        exact ⟨g1, delSafe_trans p s _ _ t2 g2, fileSafe_trans p s _ _ t3 g3⟩

/-- `enforce_disk_budget` keeps tracking the cursor path and never deletes
it (given a duplicate-free history and a valid cursor). -/
lemma enforce_track (p : String) (env : EnforceEnv) (s : St)
    (h : TrackInv p s) :
    TrackInv p (enforceDiskBudget env s) ∧
      DelSafe p s (enforceDiskBudget env s) ∧
      FileSafe p s (enforceDiskBudget env s) := by
  have hp : p ∈ keepPaths s := List.mem_append_left _ (trackInv_mem p s h)
  have hclean : TrackInv p (cleanupFiles s) := h
  unfold enforceDiskBudget
  obtain ⟨g1, g2, g3⟩ := budgetLoop_track p env _ 100 (cleanupFiles s) hclean
  exact ⟨g1, delSafe_trans p s _ _ (cleanupFiles_delSafe p s hp) g2,
    fileSafe_trans p s _ _ (cleanupFiles_fileSafe p s hp) g3⟩

/-- Claim C2 (amended): for histories without duplicate paths and a valid
cursor, the claim holds in a strengthened form: the enforcer never deletes
the artifact at the cursor at all — its path is never logged as deleted and
its file stays on disk — and the three ladder cases read exactly as claimed:
a non-current oldest entry is deleted first (with the cursor shifted left),
when the oldest IS the current artifact the second-oldest is deleted
instead, and when the current artifact is the only entry the history branch
deletes nothing.  The unamended claim fails only when the history contains
the cursor's path twice (see the counterexample). -/
theorem c2_amended (env : EnforceEnv) (s : St) (p : String)
    (hnd : s.played.Nodup) (h0 : 0 ≤ s.ci)
    (h1 : s.ci < (s.played.length : Int))
    (hp : s.played.get? s.ci.toNat = some p) :
    p ∉ newDeletions s (enforceDiskBudget env s) ∧
    (∀ f ∈ s.disk, f.path = p → f ∈ (enforceDiskBudget env s).disk) ∧
    (∀ oldest rest, s.played = oldest :: rest → oldest ≠ p →
      historyStep s =
        some { stDelete oldest s with played := rest, ci := s.ci - 1 }) ∧
    (∀ second rest2, s.played = p :: second :: rest2 →
      historyStep s = some { stDelete second s with played := p :: rest2 }) ∧
    (s.played = [p] → historyStep s = none) := by
  have ht : TrackInv p s := ⟨hnd, h0, h1, hp⟩
  have hcur := trackInv_current p s ht
  obtain ⟨g1, g2, g3⟩ := enforce_track p env s ht
  refine ⟨?_, ?_, ?_, ?_, ?_⟩
  · obtain ⟨l, hl, hnl⟩ := g2
    unfold newDeletions
    rw [hl, List.drop_left]
    exact hnl
  · intro f hf hfp
    exact g3 f hf hfp
  · intro oldest rest hpl hne
    have hpos : 0 < s.ci := trackInv_pos p oldest rest s ht hpl hne
    simp [historyStep, hpl, hcur, hne, hpos]
  · intro second rest2 hpl
    simp [historyStep, hpl, hcur]
  · intro hpl
    simp [historyStep, hpl, hcur]

/-- Witness for C2 (amended) at a distinct two-entry history with the
cursor on the newest entry. -/
theorem c2_amended_witness :
    c2W.played.Nodup ∧ (0 : Int) ≤ c2W.ci ∧
    c2W.ci < (c2W.played.length : Int) ∧
    c2W.played.get? c2W.ci.toNat = some "y" ∧
    "y" ∉ newDeletions c2W (enforceDiskBudget c2Env c2W) := by
  refine ⟨by decide, by decide, by decide, by decide, ?_⟩
  exact (c2_amended c2Env c2W "y" (by decide) (by decide) (by decide)
    (by decide)).1

/-- When the history branch deletes nothing, the ladder iteration leaves the
history and cursor untouched. -/
lemma budgetBody_none_fields (s : St) (hh : historyStep s = none) :
    (budgetBody s).1.played = s.played ∧ (budgetBody s).1.ci = s.ci := by
  unfold budgetBody
  rw [hh]
  cases s.cache with
  | cons old restC =>
    dsimp only
    split <;> simp
  | nil =>
    cases pickOldestMtime (untrackedCandidates s) <;> simp

/-- One ladder iteration preserves history distinctness and the cursor
invariant. -/
lemma budgetBody_inv (s : St) (h : StInv s) : StInv (budgetBody s).1 := by
  obtain ⟨hnd, hc⟩ := h
  cases hpl : s.played with
  | nil =>
    have hh : historyStep s = none := by simp [historyStep, hpl]
    obtain ⟨e1, e2⟩ := budgetBody_none_fields s hh
    refine ⟨by rw [e1]; exact hnd, ?_, ?_⟩
    · intro he
      rw [e2]
      rw [e1] at he
      exact hc.1 he
    · intro hne
      rw [e1] at hne
      rw [e1, e2]
      exact hc.2 hne
  | cons ev rest =>
    have hnen : s.played ≠ [] := by rw [hpl]; simp
    obtain ⟨hl0, hl1⟩ := hc.2 hnen
    have hlt : s.ci.toNat < s.played.length := by omega
    obtain ⟨p, hp⟩ : ∃ p, s.played.get? s.ci.toNat = some p :=
      ⟨s.played.get ⟨s.ci.toNat, hlt⟩, List.get?_eq_get hlt⟩
    obtain ⟨t1, _, _⟩ := budgetBody_track p s ⟨hnd, hl0, hl1, hp⟩
    refine ⟨t1.1, ?_, ?_⟩
    · intro he
      have hb := t1.2.2.1
      rw [he] at hb
      simp only [List.length_nil, Nat.cast_zero] at hb
      exact absurd t1.2.1 (by omega)
    · intro _
      exact ⟨t1.2.1, t1.2.2.1⟩

/-- The reclamation loop preserves the invariant bundle. -/
lemma budgetLoop_inv (env : EnforceEnv) (fb n : Nat) (s : St)
    (h : StInv s) : StInv (budgetLoop env fb n s) := by
  induction n generalizing s with
  | zero => exact h
  | succ n ih =>
    unfold budgetLoop
    split
    · exact h
    · split
      · exact budgetBody_inv s h
      · exact ih _ (budgetBody_inv s h)

/-- `enforce_disk_budget` preserves the invariant bundle. -/
lemma enforce_inv (env : EnforceEnv) (s : St) (h : StInv s) :
    StInv (enforceDiskBudget env s) := by
  unfold enforceDiskBudget
  exact budgetLoop_inv env _ 100 (cleanupFiles s) h

/-- `push_played_video` with `update_index=True` points the cursor at the
newest entry. -/
lemma pushPlayedVideo_ci_true (p : String) (s : St) :
    (pushPlayedVideo p true s).ci =
      ((pushPlayedVideo p true s).played.length : Int) - 1 := by
  cases hpl : s.played with
  | nil => simp [pushPlayedVideo, hpl, HISTORY_MAX]
  | cons a t =>
    by_cases hb : HISTORY_MAX < (a :: t).length + 1 <;>
      simp [pushPlayedVideo, hpl, hb, apply_ite St.ci, apply_ite St.played]

/-- A push never leaves the history empty. -/
lemma pushPlayedVideo_ne_nil (p : String) (s : St) :
    (pushPlayedVideo p true s).played ≠ [] := by
  by_cases hb : HISTORY_MAX < s.played.length + 1
  · rw [pushPlayedVideo_played, if_pos hb]
    intro he
    have hlen := congrArg List.length he
    simp only [List.length_tail, List.length_append, List.length_cons,
      List.length_nil] at hlen
    simp only [HISTORY_MAX] at hb
    omega
  · rw [pushPlayedVideo_played, if_neg hb]
    simp

/-- A push with `update_index=True` restores the cursor invariant
unconditionally. -/
lemma pushPlayedVideo_cursorOk (p : String) (s : St) :
    CursorOk (pushPlayedVideo p true s) := by
  constructor
  · intro he
    exact absurd he (pushPlayedVideo_ne_nil p s)
  · intro _
    rw [pushPlayedVideo_ci_true]
    have hpos : 0 < (pushPlayedVideo p true s).played.length :=
      List.length_pos.mpr (pushPlayedVideo_ne_nil p s)
    constructor <;> omega

/-- Pushing a path not already in the history keeps it duplicate-free. -/
lemma pushPlayedVideo_nodup (p : String) (s : St) (hnd : s.played.Nodup)
    (hp : p ∉ s.played) : (pushPlayedVideo p true s).played.Nodup := by
  have hall : (s.played ++ [p]).Nodup := by
    rw [List.nodup_append]
    refine ⟨hnd, List.nodup_singleton p, ?_⟩
    intro a ha hb
    rw [List.mem_singleton] at hb
    exact hp (hb ▸ ha)
  rw [pushPlayedVideo_played]
  split
  · exact List.Nodup.sublist (List.tail_sublist _) hall
  · exact hall

/-- The previous-navigation branch preserves the invariant bundle. -/
lemma prevOp_inv (s : St) (h : StInv s) : StInv (prevOp s) := by
  obtain ⟨hnd, hc1, hc2⟩ := h
  unfold prevOp
  split
  · rename_i hpos
    refine ⟨hnd, ?_, ?_⟩
    · intro he
      exact absurd (hc1 he) (by omega)
    · intro hne
      obtain ⟨a, b⟩ := hc2 hne
      dsimp only
      constructor <;> omega
  · exact ⟨hnd, hc1, hc2⟩

/-- Every reachable state satisfies the invariant bundle. -/
lemma reachD_inv (s : St) (h : ReachD s) : StInv s := by
  induction h with
  | init => exact ⟨List.nodup_nil, fun _ => rfl, fun hne => absurd rfl hne⟩
  | push s p hr hp ih =>
    exact ⟨pushPlayedVideo_nodup p s ih.1 hp, pushPlayedVideo_cursorOk p s⟩
  | prev s hr ih => exact prevOp_inv s ih
  | budget s env hr ih => exact enforce_inv env s ih
  | cachePush s p hr ih => exact ih
  | diskAdd s f hr ih => exact ih

/-- Claim C5 (amended): in every state reachable by pushes (of paths not
already in the history), previous-navigation, and disk-budget enforcement
under any environment, the cursor is -1 exactly when the history is empty,
and a valid index otherwise.  The unamended claim fails when a push
duplicates a path already in the history (see the counterexample). -/
theorem c5_amended (s : St) (h : ReachD s) :
    (s.played = [] ↔ s.ci = -1) ∧
    (s.played ≠ [] → 0 ≤ s.ci ∧ s.ci < (s.played.length : Int)) := by
  obtain ⟨hnd, hc1, hc2⟩ := reachD_inv s h
  refine ⟨⟨hc1, ?_⟩, hc2⟩
  intro hci
  by_contra hne
  obtain ⟨a, _⟩ := hc2 hne
  omega

/-- Witness for C5 (amended): push then previous keeps the cursor valid. -/
theorem c5_amended_witness :
    (prevOp (pushPlayedVideo "a" true initSt)).played = ["a"] ∧
    ((prevOp (pushPlayedVideo "a" true initSt)).played = [] ↔
      (prevOp (pushPlayedVideo "a" true initSt)).ci = -1) := by
  refine ⟨by decide, ?_⟩
  exact (c5_amended _ (ReachD.prev _ (ReachD.push initSt "a" ReachD.init
    (by decide)))).1

/-- A list not longer than `n` is its own last-`n` slice. -/
lemma lastN_of_le (n : Nat) (l : List String) (h : l.length ≤ n) :
    lastN n l = l := by
  unfold lastN
  rw [List.take_of_length_le (by simpa using h), List.reverse_reverse]

/-- Taking the last `n` twice across an append collapses. -/
lemma lastN_append_lastN (n : Nat) (l m : List String) :
    lastN n (lastN n l ++ m) = lastN n (l ++ m) := by
  unfold lastN
  rw [List.reverse_append, List.reverse_reverse, List.reverse_append,
    List.take_append_eq_append_take, List.take_append_eq_append_take,
    List.take_take, List.length_reverse]
  have hmin : (n - m.length) ⊓ n = n - m.length :=
    inf_eq_left.mpr (Nat.sub_le n m.length)
  rw [hmin]

/-- Dropping the head is taking the last `n` when the tail has length `n`. -/
lemma lastN_cons_of_length (n : Nat) (a : String) (l : List String)
    (h : l.length = n) : lastN n (a :: l) = l := by
  unfold lastN
  rw [List.reverse_cons, List.take_append_eq_append_take,
    List.take_of_length_le (by simp [h]), List.length_reverse, h,
    Nat.sub_self, List.take_zero, List.append_nil, List.reverse_reverse]

/-- What `add_seen_url` does to the order list: appends, sliding the
window. -/
lemma addSeenUrl_seen_window (x : String) (s : St) (h : SeenInv s) :
    (addSeenUrl x s).seen =
      lastN SEEN_URLS_MAX (s.seen ++ (if x ∈ s.pre then [] else [x])) := by
  obtain ⟨hnd, hlen, hiff⟩ := h
  by_cases hx : x ∈ s.pre
  · rw [if_pos hx, List.append_nil, lastN_of_le _ _ hlen]
    unfold addSeenUrl
    rw [if_pos hx]
  · rw [if_neg hx]
    by_cases hfull : SEEN_URLS_MAX ≤ s.seen.length
    · have hlen2 : s.seen.length = SEEN_URLS_MAX := le_antisymm hlen hfull
      cases hseen : s.seen with
      | nil =>
        rw [hseen] at hlen2
        exact absurd hlen2 (by simp [SEEN_URLS_MAX])
      | cons o rest =>
        have hres : (addSeenUrl x s).seen = rest ++ [x] := by
          unfold addSeenUrl
          rw [if_neg hx, if_pos hfull, hseen]
        rw [hres, List.cons_append, lastN_cons_of_length]
        rw [hseen] at hlen2
        simp only [List.length_append, List.length_cons, List.length_nil]
        simp only [List.length_cons] at hlen2
        omega
    · push_neg at hfull
      have hres : (addSeenUrl x s).seen = s.seen ++ [x] := by
        unfold addSeenUrl
        rw [if_neg hx, if_neg (by omega)]
      rw [hres, lastN_of_le]
      simp only [List.length_append, List.length_cons, List.length_nil]
      omega

/-- `add_seen_url` preserves the tracker invariant. -/
lemma addSeenUrl_inv (x : String) (s : St) (h : SeenInv s) :
    SeenInv (addSeenUrl x s) := by
  obtain ⟨hnd, hlen, hiff⟩ := h
  by_cases hx : x ∈ s.pre
  · have hres : addSeenUrl x s = s := by
      unfold addSeenUrl
      rw [if_pos hx]
    rw [hres]
    exact ⟨hnd, hlen, hiff⟩
  · have hxs : x ∉ s.seen := fun hm => hx ((hiff x).mpr hm)
    by_cases hfull : SEEN_URLS_MAX ≤ s.seen.length
    · have hlen2 : s.seen.length = SEEN_URLS_MAX := le_antisymm hlen hfull
      cases hseen : s.seen with
      | nil =>
        rw [hseen] at hlen2
        exact absurd hlen2 (by simp [SEEN_URLS_MAX])
      | cons o rest =>
        have hres : addSeenUrl x s =
            { s with seen := rest ++ [x],
                     pre := insert x ((s.pre).erase o) } := by
          unfold addSeenUrl
          rw [if_neg hx, if_pos hfull, hseen]
        rw [hres]
        rw [hseen, List.nodup_cons] at hnd
        have hxrest : x ∉ rest := fun hm => hxs (by rw [hseen]; right; exact hm)
        refine ⟨?_, ?_, ?_⟩
        · rw [List.nodup_append]
          refine ⟨hnd.2, List.nodup_singleton x, ?_⟩
          intro a ha hb
          rw [List.mem_singleton] at hb
          exact hxrest (hb ▸ ha)
        · rw [hseen] at hlen2
          simp only [List.length_append, List.length_cons, List.length_nil]
          simp only [List.length_cons] at hlen2
          omega
        · intro y
          rw [Finset.mem_insert, Finset.mem_erase, List.mem_append,
            List.mem_singleton]
          constructor
          · rintro (rfl | ⟨hyo, hyp⟩)
            · right; rfl
            · left
              have : y ∈ s.seen := (hiff y).mp hyp
              rw [hseen, List.mem_cons] at this
              rcases this with h | h
              · exact absurd h hyo
              · exact h
          · rintro (hy | rfl)
            · right
              refine ⟨fun he => hnd.1 (he ▸ hy), ?_⟩
              exact (hiff y).mpr (by rw [hseen]; right; exact hy)
            · left; rfl
    · push_neg at hfull
      have hres : addSeenUrl x s =
          { s with seen := s.seen ++ [x], pre := insert x s.pre } := by
        unfold addSeenUrl
        rw [if_neg hx, if_neg (by omega)]
      rw [hres]
      refine ⟨?_, ?_, ?_⟩
      · rw [List.nodup_append]
        refine ⟨hnd, List.nodup_singleton x, ?_⟩
        intro a ha hb
        rw [List.mem_singleton] at hb
        exact hxs (hb ▸ ha)
      · simp only [List.length_append, List.length_cons, List.length_nil]
        omega
      · intro y
        rw [Finset.mem_insert, List.mem_append, List.mem_singleton]
        constructor
        · rintro (rfl | hy)
          · right; rfl
          · left; exact (hiff y).mp hy
        · rintro (hy | rfl)
          · right; exact (hiff y).mpr hy
          · left; rfl

/-- Folding a trace preserves the invariant, and yields exactly the last
SEEN_URLS_MAX effective insertions. -/
lemma runSeenTrace_inv_window (tr : List String) (s : St) (h : SeenInv s) :
    SeenInv (runSeenTrace tr s) ∧
      (runSeenTrace tr s).seen =
        lastN SEEN_URLS_MAX (s.seen ++ effIns tr s) := by
  induction tr generalizing s with
  | nil =>
    refine ⟨h, ?_⟩
    show s.seen = lastN SEEN_URLS_MAX (s.seen ++ effIns [] s)
    rw [show effIns [] s = [] from rfl, List.append_nil,
      lastN_of_le _ _ h.2.1]
  | cons x tr ih =>
    obtain ⟨g1, g2⟩ := ih (addSeenUrl x s) (addSeenUrl_inv x s h)
    refine ⟨g1, ?_⟩
    show (runSeenTrace tr (addSeenUrl x s)).seen = _
    rw [g2, addSeenUrl_seen_window x s h, lastN_append_lastN,
      List.append_assoc]
    rfl

/-- Claim C6: over every sequence of `markSeen` (`add_seen_url`) calls from
the start state, `isSeen` holds for exactly the most recently inserted at
most 250 distinct identifiers — the order list is precisely the last 250
effective insertions, is duplicate-free, never exceeds 250, and coincides
with set membership; marking an already-present identifier is a no-op; and
marking a fresh identifier at capacity evicts the oldest from both the set
and the order list before appending the new one. -/
theorem c6_seen_window (tr : List String) :
    (∀ x, isSeen (runSeenTrace tr initSt) x = true ↔
      x ∈ (runSeenTrace tr initSt).seen) ∧
    (runSeenTrace tr initSt).seen =
      lastN SEEN_URLS_MAX (effIns tr initSt) ∧
    (runSeenTrace tr initSt).seen.Nodup ∧
    (runSeenTrace tr initSt).seen.length ≤ SEEN_URLS_MAX ∧
    (∀ x, isSeen (runSeenTrace tr initSt) x = true →
      addSeenUrl x (runSeenTrace tr initSt) = runSeenTrace tr initSt) ∧
    (∀ x, isSeen (runSeenTrace tr initSt) x = false →
      (runSeenTrace tr initSt).seen.length = SEEN_URLS_MAX →
      (addSeenUrl x (runSeenTrace tr initSt)).seen =
        (runSeenTrace tr initSt).seen.tail ++ [x] ∧
      (∀ y, isSeen (addSeenUrl x (runSeenTrace tr initSt)) y = true ↔
        (y ∈ (runSeenTrace tr initSt).seen.tail ∨ y = x))) := by
  have hinit : SeenInv initSt := by
    refine ⟨List.nodup_nil, by simp [initSt, SEEN_URLS_MAX], ?_⟩
    intro x
    simp [initSt]
  obtain ⟨hinv, hwin⟩ := runSeenTrace_inv_window tr initSt hinit
  obtain ⟨hnd, hlen, hiff⟩ := hinv
  refine ⟨?_, ?_, hnd, hlen, ?_, ?_⟩
  · intro x
    rw [isSeen, decide_eq_true_iff]
    exact hiff x
  · rw [hwin]
    rfl
  · intro x hx
    rw [isSeen, decide_eq_true_iff] at hx
    unfold addSeenUrl
    rw [if_pos hx]
  · intro x hx hcap
    rw [isSeen, decide_eq_false_iff_not] at hx
    have hwinx := addSeenUrl_seen_window x (runSeenTrace tr initSt)
      ⟨hnd, hlen, hiff⟩
    rw [if_neg hx] at hwinx
    cases hseen : (runSeenTrace tr initSt).seen with
    | nil =>
      rw [hseen] at hcap
      exact absurd hcap (by simp [SEEN_URLS_MAX])
    | cons o rest =>
      have htail : (addSeenUrl x (runSeenTrace tr initSt)).seen =
          rest ++ [x] := by
        rw [hwinx, hseen, List.cons_append, lastN_cons_of_length]
        rw [hseen] at hcap
        simp only [List.length_append, List.length_cons, List.length_nil]
        simp only [List.length_cons] at hcap
        omega
      refine ⟨by rw [htail, List.tail_cons], ?_⟩
      intro y
      obtain ⟨_, _, hiff2⟩ :=
        addSeenUrl_inv x (runSeenTrace tr initSt) ⟨hnd, hlen, hiff⟩
      rw [isSeen, decide_eq_true_iff, hiff2 y, htail, List.tail_cons,
        List.mem_append, List.mem_singleton]

/-- Witness for C6: after marking a, re-marking a is a no-op. -/
theorem c6_seen_window_witness :
    isSeen (runSeenTrace ["a"] initSt) "a" = true ∧
    addSeenUrl "a" (runSeenTrace ["a"] initSt) = runSeenTrace ["a"] initSt :=
  ⟨by decide, (c6_seen_window ["a"]).2.2.2.2.1 "a" (by decide)⟩

/-- Witness for C4: one fresh discovery increments the utills counter. -/
theorem c4_recycler_reads_wrong_counter_witness :
    getFreshVideoLink ["u"] sysInit =
      ((getFreshVideoLink ["u"] sysInit).1, some "u") ∧
    (getFreshVideoLink ["u"] sysInit).1.core.counter =
      sysInit.core.counter + 1 :=
  ⟨by decide,
   c4_recycler_reads_wrong_counter.2.1 ["u"] sysInit
     (getFreshVideoLink ["u"] sysInit).1 "u" (by decide)⟩

end TikTokBot
